import Mathlib

/-!
Verification development for the weather-dashboard service (`src/app.py`).

Shallow embedding conventions:
* timestamps are KST civil time measured in whole seconds, modelled as `ℤ`
  (every timestamp the program stores or compares is second-precision);
* float field values are modelled as `ℚ`; a missing value (`None`) is `none`;
* a Python dict keyed by timestamps is an association list whose keys are
  pairwise distinct;
* the SQLAlchemy table is an association list keyed by `(source, timestamp)`.
-/

/-- Python's `round(x, 2)`: round to two decimal places. -/
def round2 (x : ℚ) : ℚ := ((round (x * 100) : ℤ) : ℚ) / 100

/-- Embeds `to_10min_floor` / `kst_naive_10min_floor` (app.py:60-63, 88-91):
clear the sub-10-minute part of the timestamp. -/
def tenMinFloor (t : ℤ) : ℤ := t - t % 600

/-- Embeds `to_minute` (app.py:57-58): clear seconds and microseconds. -/
def minuteFloor (t : ℤ) : ℤ := t - t % 60

/-- Loop body of `ten_min_range` (app.py:74-83): emit 10-minute ticks from
`cur` while `cur ≤ endT`.  The fuel argument only bounds the iteration count;
`ten_min_range` always supplies enough fuel for the loop to run to completion. -/
def tenMinRangeAux (endT : ℤ) : ℕ → ℤ → List ℤ
  | 0, _ => []
  | fuel + 1, cur => if cur ≤ endT then cur :: tenMinRangeAux endT fuel (cur + 600) else []

/-- Embeds `ten_min_range` (app.py:74-83): both endpoints are floored to the
10-minute grid and every tick in between is emitted, endpoints included. -/
def ten_min_range (startT endT : ℤ) : List ℤ :=
  tenMinRangeAux (tenMinFloor endT)
    (((tenMinFloor endT - tenMinFloor startT) / 600).toNat + 1)
    (tenMinFloor startT)

/-- Python dict read (`d.get(k)` / `d[k]` on a present key): first entry of the
association list with the given key, `none` when the key is absent. -/
def dictGet (m : List (ℤ × Option ℚ)) (k : ℤ) : Option ℚ :=
  match m.find? (fun p => p.1 = k) with
  | some p => p.2
  | none => none

/-- Python dict write `d[k] = v`: overwrite in place when the key exists
(keeping insertion order), otherwise append a fresh entry. -/
def dictInsert (m : List (ℤ × Option ℚ)) (k : ℤ) (v : Option ℚ) : List (ℤ × Option ℚ) :=
  if m.any (fun p => p.1 = k) then
    m.map (fun p => if p.1 = k then (k, v) else p)
  else
    m ++ [(k, v)]

/-- The scan in `linear_fill` (app.py:115-116):
`while i + 1 < len(keys) and keys[i + 1] <= t: i += 1`.
The fuel argument only bounds the iteration count; callers pass `keys.length`,
which always suffices because `i` strictly increases below `keys.length`. -/
def lfAdvance (keys : List ℤ) (t : ℤ) : ℕ → ℕ → ℕ
  | 0, i => i
  | fuel + 1, i =>
      if i + 1 < keys.length ∧ keys.getD (i + 1) 0 ≤ t then lfAdvance keys t fuel (i + 1)
      else i

/-- Per-label body of `linear_fill` (app.py:117-128), after the scan has
placed the index `i`: clamp at the earliest / latest anchor, otherwise
interpolate between `keys[i]` and `keys[i+1]`, blocking on a null anchor. -/
def lfStep (keys : List ℤ) (get : ℤ → Option ℚ) (i : ℕ) (t : ℤ) : Option ℚ :=
  if t ≤ keys.getD 0 0 then get (keys.getD 0 0)
  else if keys.getD (keys.length - 1) 0 ≤ t then get (keys.getD (keys.length - 1) 0)
  else
    match get (keys.getD i 0), get (keys.getD (i + 1) 0) with
    | some v1, some v2 =>
        let span : ℚ := ((keys.getD (i + 1) 0 - keys.getD i 0 : ℤ) : ℚ)
        let prog : ℚ := if 0 < span then ((t - keys.getD i 0 : ℤ) : ℚ) / span else 0
        some (round2 (v1 + prog * (v2 - v1)))
    | _, _ => none

/-- The label loop of `linear_fill` (app.py:112-129): the scan index `i` is
shared across labels and only ever moves forward. -/
def lfGo (keys : List ℤ) (get : ℤ → Option ℚ) : ℕ → List ℤ → List (Option ℚ)
  | _, [] => []
  | i, t :: ts =>
      let j := lfAdvance keys t keys.length i
      lfStep keys get j t :: lfGo keys get j ts

/-- Denotation of one label's fill, with the scan restarted from 0; on sorted
timelines the shared-index loop computes exactly this at every label. -/
def fillAt (keys : List ℤ) (get : ℤ → Option ℚ) (t : ℤ) : Option ℚ :=
  lfStep keys get (lfAdvance keys t keys.length 0) t

/-- Embeds `linear_fill` (app.py:102-129).  `ts_to_val` is the anchor dict
(slot → optional value); timestamps are already KST-normalized, so the
`to_kst_naive` renormalization is the identity here. -/
def linear_fill (ts_to_val : List (ℤ × Option ℚ)) (timeline : List ℤ) : List (Option ℚ) :=
  if ts_to_val = [] then timeline.map (fun _ => none)
  else
    let keys := List.insertionSort (· ≤ ·) (ts_to_val.map Prod.fst)
    if keys = [] then timeline.map (fun _ => none)
    else lfGo keys (dictGet ts_to_val) 0 timeline

/-- Embeds the `WeatherReading` row (app.py:36-43): the three optional float
fields.  `source` and `timestamp` form the row key and are kept separately. -/
structure Reading where
  temperature : Option ℚ
  humidity : Option ℚ
  pressure : Option ℚ
deriving DecidableEq

/-- Natural key of a row: the `(source, timestamp)` pair, unique by the
table's `uniq_source_ts` constraint (app.py:37). -/
structure RKey where
  source : String
  timestamp : ℤ
deriving DecidableEq

/-- The weather table, keyed by `RKey`; the unique constraint keeps at most
one entry per key. -/
abbrev Store := List (RKey × Reading)

/-- Embeds `WeatherReading.query.filter_by(source=…, timestamp=…).first()`:
first row with the given key. -/
def Store.findRow (s : Store) (k : RKey) : Option (RKey × Reading) :=
  s.find? (fun p => p.1 = k)

/-- In-place ORM row mutation: rewrite the first row with key `k` through `f`,
leaving every other row untouched. -/
def Store.updateRow (s : Store) (k : RKey) (f : Reading → Reading) : Store :=
  match s with
  | [] => []
  | (k0, r) :: rest =>
      if k0 = k then (k0, f r) :: rest else (k0, r) :: Store.updateRow rest k f

/-- Field merge of `fetch_kma_ultra_once` (app.py:222-223): assign
`row.temperature` when `t` is non-null, then `row.humidity` when `h` is
non-null; `row.pressure` is not touched by this code path. -/
def mergeUltra (r : Reading) (t h : Option ℚ) : Reading :=
  let r1 := match t with
    | some v => { r with temperature := some v }
    | none => r
  match h with
  | some v => { r1 with humidity := some v }
  | none => r1

/-- Upsert of one bucket entry in `fetch_kma_ultra_once` (app.py:216-230):
skip when both observed fields are null, merge into an existing `KMA10` row,
otherwise insert a fresh row with `pressure=None`. -/
def upsertUltra (s : Store) (ts : ℤ) (t h : Option ℚ) : Store :=
  if t = none ∧ h = none then s
  else
    match Store.findRow s ⟨"KMA10", ts⟩ with
    | some _ => Store.updateRow s ⟨"KMA10", ts⟩ (fun r => mergeUltra r t h)
    | none => s ++ [(⟨"KMA10", ts⟩, ⟨t, h, none⟩)]

/-- Field merge of `fetch_kma_asos_today` (app.py:306-308): assign each of
the three fields only when the incoming value is non-null. -/
def mergeAsos (r : Reading) (ta hm pa : Option ℚ) : Reading :=
  let r1 := match ta with
    | some v => { r with temperature := some v }
    | none => r
  let r2 := match hm with
    | some v => { r1 with humidity := some v }
    | none => r1
  match pa with
  | some v => { r2 with pressure := some v }
  | none => r2

/-- Upsert of one data row in `fetch_kma_asos_today` (app.py:304-314). -/
def upsertAsos (s : Store) (ts : ℤ) (ta hm pa : Option ℚ) : Store :=
  match Store.findRow s ⟨"KMA", ts⟩ with
  | some _ => Store.updateRow s ⟨"KMA", ts⟩ (fun r => mergeAsos r ta hm pa)
  | none => s ++ [(⟨"KMA", ts⟩, ⟨ta, hm, pa⟩)]

/-- One parsed sensor sample of `read_from_arduino`: receipt instant and the
parsed `temperature, humidity, [pressure]` triple. -/
structure Sample where
  recv : ℤ
  temp : ℚ
  humid : ℚ
  press : Option ℚ

/-- One iteration of the insert logic in `read_from_arduino` (app.py:358-369):
skip the sample when its floored minute equals `last_min`; otherwise attempt
the insert-only write.  A row with the same `(Arduino, minute)` key makes the
commit raise `IntegrityError`, which the code answers with `rollback()` —
store unchanged, `last_min` unchanged, no exception escapes.  Only a
successful commit advances `last_min`. -/
def arduinoStep (st : Store × Option ℤ) (x : Sample) : Store × Option ℤ :=
  let minute := minuteFloor x.recv
  if some minute = st.2 then st
  else if (Store.findRow st.1 ⟨"Arduino", minute⟩).isSome then (st.1, st.2)
  else (st.1 ++ [(⟨"Arduino", minute⟩, ⟨some x.temp, some x.humid, x.press⟩)], some minute)

/-- The sensor collection loop (app.py:341-369) over a finite sample trace. -/
def read_from_arduino_loop (s : Store) (last_min : Option ℤ) (xs : List Sample) :
    Store × Option ℤ :=
  xs.foldl arduinoStep (s, last_min)

/-- Decimal digit of a character, `none` for a non-digit. -/
def digitVal (c : Char) : Option ℕ :=
  if c.isDigit then some (c.toNat - 48) else none

/-- Digit-string value; `none` on the empty string or any non-digit. -/
def parseNat (cs : List Char) : Option ℕ :=
  if cs = [] then none
  else cs.foldl (fun acc c => acc.bind (fun n => (digitVal c).map (fun d => 10 * n + d))) (some 0)

/-- Split a character list at the first dot, if any. -/
def splitDot : List Char → List Char × Option (List Char)
  | [] => ([], none)
  | c :: rest =>
      if c = '.' then ([], some rest)
      else
        let (a, b) := splitDot rest
        (c :: a, b)

/-- Python's `float()` on the plain decimal literals occurring in the ASOS
tabular payload: optional leading minus, an integer part and an optional
fractional part; `none` models the `ValueError` raised on anything else. -/
def parseFloat (s : String) : Option ℚ :=
  let (neg, cs) := match s.data with
    | '-' :: rest => (true, rest)
    | cs => (false, cs)
  match splitDot cs with
  | (ip, none) => (parseNat ip).map (fun n => if neg then -(n : ℚ) else (n : ℚ))
  | (ip, some fp) =>
      match parseNat ip, parseNat fp with
      | some n, some m =>
          let q : ℚ := (n : ℚ) + (m : ℚ) / ((10 : ℚ) ^ fp.length)
          some (if neg then -q else q)
      | _, _ => none

/-- Embeds the local helper `f` of `fetch_kma_asos_today` (app.py:292-293):
`None if v in ["", "-999.0", "-999"] else float(v)`.  The outer `Option`
layer distinguishes a raised `ValueError` (`none`) from a returned value;
`some none` is a stored null. -/
def asosField (v : String) : Option (Option ℚ) :=
  if v ∈ ["", "-999.0", "-999"] then some none
  else (parseFloat v).map some

/-- Modelled from the spec: the Error/Comparison Engine of §4.4
(`ComputeErrors`) is not present under `src/` — the repository has no
`/api/error_data` route — so its per-index rule is taken verbatim from the
spec: null when either value is null or the reference is zero, otherwise
`|sensor − reference| / |reference| × 100` rounded to 2 decimals. -/
def errAt (s r : Option ℚ) : Option ℚ :=
  match s, r with
  | some sv, some rv => if rv = 0 then none else some (round2 (|sv - rv| / |rv| * 100))
  | _, _ => none

/-- Modelled from the spec: `ComputeErrors(sensorSeries, referenceSeries) ->
(errors, average, latest)` of §4.4 — errors pointwise by `errAt`, average the
mean of the non-null errors (null if none), latest the first non-null error
scanning from the end (null if none). -/
def computeErrors (sensor reference : List (Option ℚ)) :
    List (Option ℚ) × Option ℚ × Option ℚ :=
  let errors := List.zipWith errAt sensor reference
  let nn := errors.filterMap id
  let avg := if nn = [] then none else some (nn.sum / (nn.length : ℚ))
  let latest := (errors.reverse.filterMap id).head?
  (errors, avg, latest)

/-- Window-start computation of `get_chart_data` (app.py:426-442): with a
first Arduino record of the session, its floored timestamp, pushed back one
extra 10-minute step when less than 10 minutes from `now`; without one, the
floor of `max(session_start, now − 1h)`. -/
def chartStart (first_arduino : Option ℤ) (session_start now : ℤ) : ℤ :=
  match first_arduino with
  | some ts =>
      let s := tenMinFloor ts
      if now - s < 600 then s - 600 else s
  | none => tenMinFloor (max session_start (now - 3600))

/-- Anchor-dict construction of `get_chart_data` (app.py:457-461): records
with a null field are skipped; a record's value lands on its floored
10-minute slot, a later record overwriting an earlier one on the same slot. -/
def kmaMap (recs : List (ℤ × Option ℚ)) : List (ℤ × Option ℚ) :=
  recs.foldl
    (fun m r =>
      match r.2 with
      | some v => dictInsert m (tenMinFloor r.1) (some v)
      | none => m)
    []

/-- Sensor bucketing of `get_chart_data` (app.py:470-474): last record per
floored slot wins; slots outside the label set are dropped; values are stored
as-is (possibly null). -/
def ardBucket (labels : List ℤ) (recs : List (ℤ × Option ℚ)) : List (ℤ × Option ℚ) :=
  recs.foldl
    (fun b r =>
      let slot := tenMinFloor r.1
      if slot ∈ labels then dictInsert b slot r.2 else b)
    []

/-- Embeds the series construction of `get_chart_data` (app.py:422-477) for a
valid category.  `kma_recs` / `ard_recs` carry each fetched record's
timestamp and the selected field's value; the returned triple is
`(labels, kma_values, arduino_values)`. -/
def get_chart_data (first_arduino : Option ℤ) (session_start now : ℤ)
    (kma_recs ard_recs : List (ℤ × Option ℚ)) :
    List ℤ × List (Option ℚ) × List (Option ℚ) :=
  let start := chartStart first_arduino session_start now
  let labels := ten_min_range start now
  let kma_vals := linear_fill (kmaMap kma_recs) labels
  let bucket := ardBucket labels ard_recs
  let ard_vals := labels.map (fun t => dictGet bucket t)
  (labels, kma_vals, ard_vals)

/-! ### List access helpers -/

theorem getD_of_getElem? {l : List ℤ} {i : ℕ} {a : ℤ} (h : l[i]? = some a) :
    l.getD i 0 = a := by
  have hi : i < l.length := by
    by_contra hlt
    rw [List.getElem?_eq_none (by omega)] at h
    exact Option.noConfusion h
  rw [List.getD_eq_getElem?_getD, h]
  rfl

theorem getD_mem {l : List ℤ} {i : ℕ} (h : i < l.length) : l.getD i 0 ∈ l := by
  rw [List.getD_eq_getElem?_getD, List.getElem?_eq_getElem h]
  exact List.getElem_mem h

theorem sorted_getD_lt {l : List ℤ} (hs : l.Pairwise (· < ·)) {i j : ℕ}
    (hij : i < j) (hj : j < l.length) : l.getD i 0 < l.getD j 0 := by
  have hi : i < l.length := lt_trans hij hj
  rw [List.getD_eq_getElem?_getD, List.getElem?_eq_getElem hi,
    List.getD_eq_getElem?_getD, List.getElem?_eq_getElem hj]
  exact List.pairwise_iff_getElem.mp hs i j hi hj hij

theorem sorted_getD_le {l : List ℤ} (hs : l.Pairwise (· < ·)) {i j : ℕ}
    (hij : i ≤ j) (hj : j < l.length) : l.getD i 0 ≤ l.getD j 0 := by
  rcases lt_or_eq_of_le hij with h | h
  · exact le_of_lt (sorted_getD_lt hs h hj)
  · rw [h]

/-- Looking up the key of the `j`-th entry of a strictly-sorted-keys
association list returns that entry's value. -/
theorem dictGet_of_getElem? {m : List (ℤ × Option ℚ)} {j : ℕ} {k : ℤ} {v : Option ℚ}
    (hs : (m.map Prod.fst).Pairwise (· < ·)) (hj : m[j]? = some (k, v)) :
    dictGet m k = v := by
  induction m generalizing j with
  | nil => simp at hj
  | cons p rest ih =>
    rcases j with _ | n
    · simp only [List.getElem?_cons_zero, Option.some_inj] at hj
      subst hj
      simp [dictGet, List.find?_cons_of_pos]
    · simp only [List.getElem?_cons_succ] at hj
      have hs' : (p.1 :: rest.map Prod.fst).Pairwise (· < ·) := by simpa using hs
      have hpair := List.pairwise_cons.mp hs'
      have hkmem : k ∈ rest.map Prod.fst := by
        have : n < rest.length := by
          by_contra hlt
          rw [List.getElem?_eq_none (by omega)] at hj
          exact Option.noConfusion hj
        have := List.getElem?_eq_getElem (l := rest) this
        rw [this] at hj
        have hk : (rest[n]).1 = k := by rw [Option.some_inj] at hj; rw [hj]
        rw [← hk]
        exact List.mem_map_of_mem Prod.fst (List.getElem_mem _)
      have hne : p.1 ≠ k := ne_of_lt (hpair.1 k hkmem)
      have : dictGet (p :: rest) k = dictGet rest k := by
        simp [dictGet, List.find?_cons_of_neg, hne]
      rw [this]
      exact ih hpair.2 hj

/-- A key present in an all-non-null association list looks up to a non-null
value. -/
theorem dictGet_ne_none {m : List (ℤ × Option ℚ)} {k : ℤ}
    (hv : ∀ p ∈ m, p.2 ≠ none) (hk : k ∈ m.map Prod.fst) : dictGet m k ≠ none := by
  induction m with
  | nil => simp at hk
  | cons p rest ih =>
    by_cases hpk : p.1 = k
    · have : dictGet (p :: rest) k = p.2 := by simp [dictGet, List.find?_cons_of_pos, hpk]
      rw [this]
      exact hv p (List.mem_cons_self p rest)
    · have : dictGet (p :: rest) k = dictGet rest k := by
        simp [dictGet, List.find?_cons_of_neg, hpk]
      rw [this]
      have hk' : k ∈ rest.map Prod.fst := by
        rcases List.mem_map.mp hk with ⟨q, hq, hqk⟩
        rcases List.mem_cons.mp hq with h | h
        · exact absurd (h ▸ hqk) hpk
        · exact hqk ▸ List.mem_map_of_mem Prod.fst h
      exact ih (fun q hq => hv q (List.mem_cons_of_mem p hq)) hk'

/-! ### Properties of the scan index of linear_fill -/

theorem lfAdvance_ge (keys : List ℤ) (t : ℤ) :
    ∀ (fuel i : ℕ), i ≤ lfAdvance keys t fuel i
  | 0, i => le_refl i
  | fuel + 1, i => by
      simp only [lfAdvance]
      split
      · exact le_trans (Nat.le_succ i) (lfAdvance_ge keys t fuel (i + 1))
      · exact le_refl i

theorem lfAdvance_lt_length (keys : List ℤ) (t : ℤ) :
    ∀ (fuel i : ℕ), i < keys.length → lfAdvance keys t fuel i < keys.length
  | 0, _, h => h
  | fuel + 1, i, h => by
      simp only [lfAdvance]
      split
      next hc => exact lfAdvance_lt_length keys t fuel (i + 1) hc.1
      next => exact h

theorem lfAdvance_le_t (keys : List ℤ) (t : ℤ) :
    ∀ (fuel i : ℕ), i < lfAdvance keys t fuel i →
      keys.getD (lfAdvance keys t fuel i) 0 ≤ t
  | 0, i, h => absurd h (lt_irrefl i)
  | fuel + 1, i, h => by
      simp only [lfAdvance] at h ⊢
      split at h
      next hc =>
        rw [if_pos hc]
        rcases lt_or_eq_of_le (lfAdvance_ge keys t fuel (i + 1)) with hlt | heq
        · exact lfAdvance_le_t keys t fuel (i + 1) hlt
        · rw [← heq]; exact hc.2
      next => exact absurd h (lt_irrefl i)

theorem lfAdvance_of_len_le (keys : List ℤ) (t : ℤ) :
    ∀ (fuel i : ℕ), keys.length ≤ i → lfAdvance keys t fuel i = i
  | 0, _, _ => rfl
  | fuel + 1, i, h => by
      simp only [lfAdvance]
      rw [if_neg]
      rintro ⟨h1, _⟩
      omega

theorem lfAdvance_stop (keys : List ℤ) (t : ℤ) :
    ∀ (fuel i : ℕ), keys.length ≤ fuel + i →
      ¬(lfAdvance keys t fuel i + 1 < keys.length ∧
        keys.getD (lfAdvance keys t fuel i + 1) 0 ≤ t)
  | 0, i, h => by
      simp only [lfAdvance]
      rintro ⟨h1, _⟩
      omega
  | fuel + 1, i, h => by
      simp only [lfAdvance]
      split
      next hc => exact lfAdvance_stop keys t fuel (i + 1) (by omega)
      next hc => exact hc

theorem lfAdvance_fuel_irrel (keys : List ℤ) (t : ℤ) :
    ∀ (fuel fuel' i : ℕ), keys.length ≤ fuel + i → keys.length ≤ fuel' + i →
      lfAdvance keys t fuel i = lfAdvance keys t fuel' i := by
  intro fuel
  induction fuel with
  | zero =>
      intro fuel' i h1 _
      simp only [lfAdvance]
      exact (lfAdvance_of_len_le keys t fuel' i (by omega)).symm
  | succ fuel ih =>
      intro fuel' i h1 h2
      cases fuel' with
      | zero =>
          simp only [lfAdvance]
          exact lfAdvance_of_len_le keys t (fuel + 1) i (by omega)
      | succ fuel' =>
          simp only [lfAdvance]
          split
          next => exact ih fuel' (i + 1) (by omega) (by omega)
          next => rfl

theorem lfAdvance_step (keys : List ℤ) (t : ℤ) (fuel i : ℕ)
    (hc : i + 1 < keys.length ∧ keys.getD (i + 1) 0 ≤ t)
    (hf : keys.length ≤ fuel + i) :
    lfAdvance keys t fuel i = lfAdvance keys t fuel (i + 1) := by
  cases fuel with
  | zero => omega
  | succ fuel =>
      simp only [lfAdvance]
      rw [if_pos hc]
      exact lfAdvance_fuel_irrel keys t fuel (fuel + 1) (i + 1) (by omega) (by omega)

theorem lfAdvance_congr (keys : List ℤ) (t : ℤ) (hs : keys.Pairwise (· < ·))
    {j : ℕ} (hj : j < keys.length) (hjt : keys.getD j 0 ≤ t) :
    ∀ (d i fuel : ℕ), i + d = j → keys.length ≤ fuel + i →
      lfAdvance keys t fuel i = lfAdvance keys t fuel j := by
  intro d
  induction d with
  | zero =>
      intro i fuel hd _
      rw [show i = j by omega]
  | succ d ih =>
      intro i fuel hd hf
      have hstep : lfAdvance keys t fuel i = lfAdvance keys t fuel (i + 1) := by
        refine lfAdvance_step keys t fuel i ⟨by omega, ?_⟩ hf
        exact le_trans (sorted_getD_le hs (by omega) hj) hjt
      rw [hstep]
      exact ih (i + 1) fuel (by omega) (by omega)

theorem lfAdvance_fix (keys : List ℤ) (t : ℤ) (fuel j : ℕ)
    (h : ¬(j + 1 < keys.length ∧ keys.getD (j + 1) 0 ≤ t)) :
    lfAdvance keys t fuel j = j := by
  cases fuel with
  | zero => rfl
  | succ fuel => simp only [lfAdvance]; rw [if_neg h]

/-! ### The label loop on a sorted timeline computes fillAt pointwise -/

theorem lfGo_eq_map (keys : List ℤ) (get : ℤ → Option ℚ) (hne : keys ≠ [])
    (hs : keys.Pairwise (· < ·)) :
    ∀ (tl : List ℤ) (i : ℕ), tl.Pairwise (· ≤ ·) →
      (i = 0 ∨ (i < keys.length ∧ ∀ u ∈ tl, keys.getD i 0 ≤ u)) →
      lfGo keys get i tl = tl.map (fillAt keys get) := by
  intro tl
  induction tl with
  | nil => intro i _ _; rfl
  | cons t ts ih =>
      intro i htl hinv
      have hlen0 : 0 < keys.length := List.length_pos.mpr hne
      have hilen : i < keys.length := by
        rcases hinv with h0 | ⟨h, _⟩
        · omega
        · exact h
      have hadv : lfAdvance keys t keys.length 0 = lfAdvance keys t keys.length i := by
        rcases hinv with h0 | ⟨_, hle⟩
        · rw [h0]
        · exact lfAdvance_congr keys t hs hilen (hle t (List.mem_cons_self t ts)) i 0
            keys.length (by omega) (by omega)
      have hmono : ∀ u ∈ ts, t ≤ u := (List.pairwise_cons.mp htl).1
      have hjlt : lfAdvance keys t keys.length i < keys.length :=
        lfAdvance_lt_length keys t keys.length i hilen
      have hinv' : lfAdvance keys t keys.length i = 0 ∨
          (lfAdvance keys t keys.length i < keys.length ∧
            ∀ u ∈ ts, keys.getD (lfAdvance keys t keys.length i) 0 ≤ u) := by
        rcases Nat.eq_zero_or_pos (lfAdvance keys t keys.length i) with hj0 | hjpos
        · exact Or.inl hj0
        · right
          refine ⟨hjlt, fun u hu => ?_⟩
          have hjle : keys.getD (lfAdvance keys t keys.length i) 0 ≤ t := by
            rcases lt_or_eq_of_le (lfAdvance_ge keys t keys.length i) with hlt | heq
            · exact lfAdvance_le_t keys t keys.length i hlt
            · rcases hinv with h0 | ⟨_, hle⟩
              · omega
              · rw [← heq]; exact hle t (List.mem_cons_self t ts)
          exact le_trans hjle (hmono u hu)
      simp only [lfGo, List.map_cons]
      congr 1
      · rw [fillAt, hadv]
      · exact ih (lfAdvance keys t keys.length i) (List.pairwise_cons.mp htl).2 hinv'

/-- On a nonempty, strictly-sorted anchor dict and a sorted timeline,
`linear_fill` is the pointwise fill. -/
theorem linear_fill_eq_map {m : List (ℤ × Option ℚ)} {timeline : List ℤ}
    (hne : m ≠ []) (hsk : (m.map Prod.fst).Pairwise (· < ·))
    (htl : timeline.Pairwise (· ≤ ·)) :
    linear_fill m timeline = timeline.map (fillAt (m.map Prod.fst) (dictGet m)) := by
  have hsort : (m.map Prod.fst).Sorted (· ≤ ·) := hsk.imp le_of_lt
  have hkne : m.map Prod.fst ≠ [] := by simpa using hne
  unfold linear_fill
  rw [if_neg hne, hsort.insertionSort_eq, if_neg hkne]
  exact lfGo_eq_map _ _ hkne hsk timeline 0 htl (Or.inl rfl)

/-! ### Pointwise fill by branch -/

theorem fillAt_clamp_left {keys : List ℤ} {get : ℤ → Option ℚ} {t : ℤ}
    (h : t ≤ keys.getD 0 0) : fillAt keys get t = get (keys.getD 0 0) := by
  rw [fillAt, lfStep, if_pos h]

theorem fillAt_clamp_right {keys : List ℤ} {get : ℤ → Option ℚ} {t : ℤ}
    (hs : keys.Pairwise (· < ·)) (hne : keys ≠ [])
    (h : keys.getD (keys.length - 1) 0 ≤ t) :
    fillAt keys get t = get (keys.getD (keys.length - 1) 0) := by
  have hlen0 : 0 < keys.length := List.length_pos.mpr hne
  rw [fillAt, lfStep]
  by_cases h0 : t ≤ keys.getD 0 0
  · rw [if_pos h0]
    have h1 : keys.getD 0 0 ≤ keys.getD (keys.length - 1) 0 :=
      sorted_getD_le hs (Nat.zero_le _) (by omega)
    rw [le_antisymm h1 (le_trans h h0)]
  · rw [if_neg h0, if_pos h]

theorem fillAt_between {keys : List ℤ} {get : ℤ → Option ℚ} {t : ℤ} {j : ℕ}
    (hs : keys.Pairwise (· < ·)) (hj1 : j + 1 < keys.length)
    (hl : keys.getD j 0 < t) (hr : t < keys.getD (j + 1) 0) :
    fillAt keys get t =
      match get (keys.getD j 0), get (keys.getD (j + 1) 0) with
      | some v1, some v2 =>
          some (round2 (v1 + ((t - keys.getD j 0 : ℤ) : ℚ) /
            ((keys.getD (j + 1) 0 - keys.getD j 0 : ℤ) : ℚ) * (v2 - v1)))
      | _, _ => none := by
  have hadv : lfAdvance keys t keys.length 0 = j := by
    have h1 : lfAdvance keys t keys.length 0 = lfAdvance keys t keys.length j :=
      lfAdvance_congr keys t hs (by omega) (le_of_lt hl) j 0 keys.length
        (by omega) (by omega)
    rw [h1]
    refine lfAdvance_fix keys t keys.length j ?_
    rintro ⟨_, hle⟩
    exact absurd hle (not_le.mpr hr)
  have hc0 : ¬ t ≤ keys.getD 0 0 :=
    not_le.mpr (lt_of_le_of_lt (sorted_getD_le hs (Nat.zero_le j) (by omega)) hl)
  have hcl : ¬ keys.getD (keys.length - 1) 0 ≤ t :=
    not_le.mpr (lt_of_lt_of_le hr (sorted_getD_le hs (by omega) (by omega)))
  have hspan : (0 : ℚ) < ((keys.getD (j + 1) 0 - keys.getD j 0 : ℤ) : ℚ) := by
    have := sorted_getD_lt hs (Nat.lt_succ_self j) hj1
    exact_mod_cast (by omega : (0 : ℤ) < keys.getD (j + 1) 0 - keys.getD j 0)
  rw [fillAt, hadv, lfStep, if_neg hc0, if_neg hcl]
  cases get (keys.getD j 0) <;> cases get (keys.getD (j + 1) 0) <;>
    simp only [if_pos hspan]

/-- The interior branch of the fill never reads a null anchor value when every
anchor value is non-null: on a nonempty strictly sorted key list drawn from
the dict's keys, every pointwise fill is non-null. -/
theorem fillAt_ne_none {keys : List ℤ} {m : List (ℤ × Option ℚ)} {t : ℤ}
    (hs : keys.Pairwise (· < ·)) (hne : keys ≠ [])
    (hsub : ∀ k ∈ keys, k ∈ m.map Prod.fst)
    (hv : ∀ p ∈ m, p.2 ≠ none) :
    fillAt keys (dictGet m) t ≠ none := by
  have hlen0 : 0 < keys.length := List.length_pos.mpr hne
  by_cases h0 : t ≤ keys.getD 0 0
  · rw [fillAt_clamp_left h0]
    exact dictGet_ne_none hv (hsub _ (getD_mem (by omega)))
  · by_cases hlast : keys.getD (keys.length - 1) 0 ≤ t
    · rw [fillAt_clamp_right hs hne hlast]
      exact dictGet_ne_none hv (hsub _ (getD_mem (by omega)))
    · have hjlt : lfAdvance keys t keys.length 0 < keys.length :=
        lfAdvance_lt_length keys t keys.length 0 hlen0
      have hjle : keys.getD (lfAdvance keys t keys.length 0) 0 ≤ t := by
        rcases Nat.eq_zero_or_pos (lfAdvance keys t keys.length 0) with hj0 | hjpos
        · rw [hj0]; exact le_of_not_le h0
        · exact lfAdvance_le_t keys t keys.length 0
            (lt_of_lt_of_le hjpos (le_refl _))
      have hj1 : lfAdvance keys t keys.length 0 + 1 < keys.length := by
        by_contra hcon
        have : lfAdvance keys t keys.length 0 = keys.length - 1 := by omega
        rw [this] at hjle
        exact hlast hjle
      have hg1 : dictGet m (keys.getD (lfAdvance keys t keys.length 0) 0) ≠ none :=
        dictGet_ne_none hv (hsub _ (getD_mem (by omega)))
      have hg2 : dictGet m (keys.getD (lfAdvance keys t keys.length 0 + 1) 0) ≠ none :=
        dictGet_ne_none hv (hsub _ (getD_mem hj1))
      rw [fillAt, lfStep, if_neg h0, if_neg hlast]
      rcases Option.ne_none_iff_exists'.mp hg1 with ⟨v1, hv1⟩
      rcases Option.ne_none_iff_exists'.mp hg2 with ⟨v2, hv2⟩
      rw [hv1, hv2]
      simp

/-! ### Claim theorems: the interpolator -/

theorem getElem?_lt_length {l : List (ℤ × Option ℚ)} {i : ℕ} {a : ℤ × Option ℚ}
    (h : l[i]? = some a) : i < l.length := by
  by_contra hc
  rw [List.getElem?_eq_none (by omega)] at h
  exact Option.noConfusion h

/-- Claim C1: for every anchor dict and every (ascending) label grid, a label
lying strictly between two adjacent non-null anchors receives
`v1 + ((t − t1)/(t2 − t1)) · (v2 − v1)` rounded to 2 decimal places
(app.py:122-128); in particular, with anchors at 0 s → 10.0 and 1200 s → 20.0
on a 10-minute grid, the label at 600 s receives exactly 15.0. -/
theorem C1_strict_interior_interpolates :
    (∀ (anchors : List (ℤ × Option ℚ)) (timeline : List ℤ) (j n : ℕ)
        (t t1 t2 : ℤ) (v1 v2 : ℚ),
      (anchors.map Prod.fst).Pairwise (· < ·) →
      timeline.Pairwise (· ≤ ·) →
      anchors[j]? = some (t1, some v1) →
      anchors[j + 1]? = some (t2, some v2) →
      t1 < t → t < t2 →
      timeline[n]? = some t →
      (linear_fill anchors timeline)[n]? =
        some (some (round2 (v1 + ((t - t1 : ℤ) : ℚ) / ((t2 - t1 : ℤ) : ℚ) * (v2 - v1)))))
    ∧ (linear_fill [(0, some 10), (1200, some 20)] [0, 600, 1200])[1]? = some (some 15) := by
  have main : ∀ (anchors : List (ℤ × Option ℚ)) (timeline : List ℤ) (j n : ℕ)
      (t t1 t2 : ℤ) (v1 v2 : ℚ),
      (anchors.map Prod.fst).Pairwise (· < ·) →
      timeline.Pairwise (· ≤ ·) →
      anchors[j]? = some (t1, some v1) →
      anchors[j + 1]? = some (t2, some v2) →
      t1 < t → t < t2 →
      timeline[n]? = some t →
      (linear_fill anchors timeline)[n]? =
        some (some (round2 (v1 + ((t - t1 : ℤ) : ℚ) / ((t2 - t1 : ℤ) : ℚ) * (v2 - v1)))) := by
    intro anchors timeline j n t t1 t2 v1 v2 hsk htl hj1 hj2 hlt1 hlt2 hn
    have hne : anchors ≠ [] := by
      intro hc
      rw [hc] at hj1
      simp at hj1
    have hkj : (anchors.map Prod.fst).getD j 0 = t1 := by
      apply getD_of_getElem?
      rw [List.getElem?_map, hj1]
      rfl
    have hkj1 : (anchors.map Prod.fst).getD (j + 1) 0 = t2 := by
      apply getD_of_getElem?
      rw [List.getElem?_map, hj2]
      rfl
    have hjlen : j + 1 < (anchors.map Prod.fst).length := by
      rw [List.length_map]
      exact getElem?_lt_length hj2
    rw [linear_fill_eq_map hne hsk htl, List.getElem?_map, hn, Option.map_some']
    rw [fillAt_between hsk hjlen (by rw [hkj]; exact hlt1) (by rw [hkj1]; exact hlt2)]
    rw [hkj, hkj1, dictGet_of_getElem? hsk hj1, dictGet_of_getElem? hsk hj2]
  refine ⟨main, ?_⟩
  have h := main [(0, some 10), (1200, some 20)] [0, 600, 1200] 0 1 600 0 1200 10 20
    (by decide) (by decide) rfl rfl (by decide) (by decide) rfl
  rw [h]
  norm_num [round2, round_eq]

theorem C1_strict_interior_interpolates_witness :
    (linear_fill [(0, some 10), (1200, some 20)] [0, 600, 1200])[1]? =
      some (some (round2 (10 + ((600 - 0 : ℤ) : ℚ) / ((1200 - 0 : ℤ) : ℚ) * (20 - 10)))) :=
  C1_strict_interior_interpolates.1 [(0, some 10), (1200, some 20)] [0, 600, 1200]
    0 1 600 0 1200 10 20 (by decide) (by decide) rfl rfl (by decide) (by decide) rfl

/-- Claim C2: for every non-empty anchor dict and every label grid, a label at
or before the earliest anchor receives the earliest anchor's stored value
unchanged, and a label at or after the latest anchor receives the latest
anchor's stored value unchanged (app.py:117-120). -/
theorem C2_edge_clamp :
    ∀ (anchors : List (ℤ × Option ℚ)) (timeline : List ℤ) (n : ℕ)
      (t tFirst tLast : ℤ) (vFirst vLast : Option ℚ),
      (anchors.map Prod.fst).Pairwise (· < ·) →
      timeline.Pairwise (· ≤ ·) →
      anchors.head? = some (tFirst, vFirst) →
      anchors.getLast? = some (tLast, vLast) →
      timeline[n]? = some t →
      (t ≤ tFirst → (linear_fill anchors timeline)[n]? = some vFirst) ∧
      (tLast ≤ t → (linear_fill anchors timeline)[n]? = some vLast) := by
  intro anchors timeline n t tFirst tLast vFirst vLast hsk htl hhead hlast hn
  have h0 : anchors[0]? = some (tFirst, vFirst) := by
    rw [← List.head?_eq_getElem?]
    exact hhead
  have hL : anchors[anchors.length - 1]? = some (tLast, vLast) := by
    rw [← List.getLast?_eq_getElem?]
    exact hlast
  have hne : anchors ≠ [] := by
    intro hc
    rw [hc] at h0
    simp at h0
  have hlen0 : 0 < anchors.length := List.length_pos.mpr hne
  have hkne : anchors.map Prod.fst ≠ [] := by simpa using hne
  have hk0 : (anchors.map Prod.fst).getD 0 0 = tFirst := by
    apply getD_of_getElem?
    rw [List.getElem?_map, h0]
    rfl
  have hkL : (anchors.map Prod.fst).getD ((anchors.map Prod.fst).length - 1) 0 = tLast := by
    apply getD_of_getElem?
    rw [List.getElem?_map, List.length_map, hL]
    rfl
  constructor
  · intro hle
    rw [linear_fill_eq_map hne hsk htl, List.getElem?_map, hn, Option.map_some']
    rw [fillAt_clamp_left (by rw [hk0]; exact hle), hk0, dictGet_of_getElem? hsk h0]
  · intro hge
    rw [linear_fill_eq_map hne hsk htl, List.getElem?_map, hn, Option.map_some']
    rw [fillAt_clamp_right hsk hkne (by rw [hkL]; exact hge), hkL]
    rw [dictGet_of_getElem? (j := anchors.length - 1) hsk hL]

theorem C2_edge_clamp_witness :
    (linear_fill [(600, some 7)] [0, 600, 1200])[0]? = some (some 7) :=
  (C2_edge_clamp [(600, some 7)] [0, 600, 1200] 0 0 600 600 (some 7) (some 7)
    (by decide) (by decide) rfl rfl rfl).1 (by decide)

/-- Claim C3: for every label strictly between two adjacent anchors, if either
bounding anchor carries a null value, the filled value at that label is null —
no arithmetic is performed through a null anchor (app.py:122-125). -/
theorem C3_null_anchor_blocks :
    ∀ (anchors : List (ℤ × Option ℚ)) (timeline : List ℤ) (j n : ℕ)
      (t t1 t2 : ℤ) (o1 o2 : Option ℚ),
      (anchors.map Prod.fst).Pairwise (· < ·) →
      timeline.Pairwise (· ≤ ·) →
      anchors[j]? = some (t1, o1) →
      anchors[j + 1]? = some (t2, o2) →
      o1 = none ∨ o2 = none →
      t1 < t → t < t2 →
      timeline[n]? = some t →
      (linear_fill anchors timeline)[n]? = some none := by
  intro anchors timeline j n t t1 t2 o1 o2 hsk htl hj1 hj2 hnull hlt1 hlt2 hn
  have hne : anchors ≠ [] := by
    intro hc
    rw [hc] at hj1
    simp at hj1
  have hkj : (anchors.map Prod.fst).getD j 0 = t1 := by
    apply getD_of_getElem?
    rw [List.getElem?_map, hj1]
    rfl
  have hkj1 : (anchors.map Prod.fst).getD (j + 1) 0 = t2 := by
    apply getD_of_getElem?
    rw [List.getElem?_map, hj2]
    rfl
  have hjlen : j + 1 < (anchors.map Prod.fst).length := by
    rw [List.length_map]
    exact getElem?_lt_length hj2
  rw [linear_fill_eq_map hne hsk htl, List.getElem?_map, hn, Option.map_some']
  rw [fillAt_between hsk hjlen (by rw [hkj]; exact hlt1) (by rw [hkj1]; exact hlt2)]
  rw [hkj, hkj1, dictGet_of_getElem? hsk hj1, dictGet_of_getElem? hsk hj2]
  rcases hnull with h | h
  · subst h
    cases o2 <;> rfl
  · subst h
    cases o1 <;> rfl

theorem C3_null_anchor_blocks_witness :
    (linear_fill [(0, some 10), (1200, none), (1800, some 30)] [1500])[0]? = some none :=
  C3_null_anchor_blocks [(0, some 10), (1200, none), (1800, some 30)] [1500]
    1 0 1500 1200 1800 none (some 30) (by decide) (by decide) rfl rfl
    (Or.inl rfl) (by decide) (by decide) rfl

/-! ### Claim theorems: the store upserts -/

theorem findRow_updateRow {s : Store} {k : RKey} {a : RKey × Reading} (f : Reading → Reading)
    (h : Store.findRow s k = some a) :
    Store.findRow (Store.updateRow s k f) k = some (a.1, f a.2) := by
  induction s with
  | nil => simp [Store.findRow] at h
  | cons p rest ih =>
      obtain ⟨k0, r⟩ := p
      by_cases hpk : k0 = k
      · subst hpk
        have h1 : Store.findRow ((k0, r) :: rest) k0 = some (k0, r) := by
          simp [Store.findRow, List.find?_cons_of_pos]
        rw [h1] at h
        injection h with h
        subst h
        simp [Store.updateRow, Store.findRow, List.find?_cons_of_pos]
      · have h1 : Store.findRow ((k0, r) :: rest) k = Store.findRow rest k := by
          simp [Store.findRow, List.find?_cons_of_neg, hpk]
        rw [h1] at h
        have h2 : Store.updateRow ((k0, r) :: rest) k f =
            (k0, r) :: Store.updateRow rest k f := by
          simp [Store.updateRow, hpk]
        rw [h2]
        have h3 : Store.findRow ((k0, r) :: Store.updateRow rest k f) k =
            Store.findRow (Store.updateRow rest k f) k := by
          simp [Store.findRow, List.find?_cons_of_neg, hpk]
        rw [h3]
        exact ih h

/-- Claim C5: on an upsert to an existing `(source, timestamp)` row, a
non-null incoming field overwrites the stored value and a null incoming field
leaves the stored value unchanged, for both the near-real-time path
(app.py:220-229, which never touches `pressure`) and the hourly path
(app.py:304-314); the merged row is what the store then holds at that key. -/
theorem C5_null_preserving_upsert :
    (∀ (r0 : Reading) (t h : Option ℚ),
        (t = none → (mergeUltra r0 t h).temperature = r0.temperature) ∧
        (∀ v, t = some v → (mergeUltra r0 t h).temperature = some v) ∧
        (h = none → (mergeUltra r0 t h).humidity = r0.humidity) ∧
        (∀ v, h = some v → (mergeUltra r0 t h).humidity = some v) ∧
        (mergeUltra r0 t h).pressure = r0.pressure)
    ∧ (∀ (r0 : Reading) (ta hm pa : Option ℚ),
        (ta = none → (mergeAsos r0 ta hm pa).temperature = r0.temperature) ∧
        (∀ v, ta = some v → (mergeAsos r0 ta hm pa).temperature = some v) ∧
        (hm = none → (mergeAsos r0 ta hm pa).humidity = r0.humidity) ∧
        (∀ v, hm = some v → (mergeAsos r0 ta hm pa).humidity = some v) ∧
        (pa = none → (mergeAsos r0 ta hm pa).pressure = r0.pressure) ∧
        (∀ v, pa = some v → (mergeAsos r0 ta hm pa).pressure = some v))
    ∧ (∀ (s : Store) (ts : ℤ) (r0 : Reading) (t h : Option ℚ),
        Store.findRow s ⟨"KMA10", ts⟩ = some (⟨"KMA10", ts⟩, r0) →
        ¬(t = none ∧ h = none) →
        Store.findRow (upsertUltra s ts t h) ⟨"KMA10", ts⟩ =
          some (⟨"KMA10", ts⟩, mergeUltra r0 t h))
    ∧ (∀ (s : Store) (ts : ℤ) (r0 : Reading) (ta hm pa : Option ℚ),
        Store.findRow s ⟨"KMA", ts⟩ = some (⟨"KMA", ts⟩, r0) →
        Store.findRow (upsertAsos s ts ta hm pa) ⟨"KMA", ts⟩ =
          some (⟨"KMA", ts⟩, mergeAsos r0 ta hm pa)) := by
  refine ⟨?_, ?_, ?_, ?_⟩
  · intro r0 t h
    refine ⟨?_, ?_, ?_, ?_, ?_⟩
    · rintro rfl; cases h <;> rfl
    · rintro v rfl; cases h <;> rfl
    · rintro rfl; cases t <;> rfl
    · rintro v rfl; cases t <;> rfl
    · cases t <;> cases h <;> rfl
  · intro r0 ta hm pa
    refine ⟨?_, ?_, ?_, ?_, ?_, ?_⟩
    · rintro rfl; cases hm <;> cases pa <;> rfl
    · rintro v rfl; cases hm <;> cases pa <;> rfl
    · rintro rfl; cases ta <;> cases pa <;> rfl
    · rintro v rfl; cases ta <;> cases pa <;> rfl
    · rintro rfl; cases ta <;> cases hm <;> rfl
    · rintro v rfl; cases ta <;> cases hm <;> rfl
  · intro s ts r0 t h hfind hng
    unfold upsertUltra
    rw [if_neg hng, hfind]
    exact findRow_updateRow _ hfind
  · intro s ts r0 ta hm pa hfind
    unfold upsertAsos
    rw [hfind]
    exact findRow_updateRow _ hfind

theorem C5_null_preserving_upsert_witness :
    Store.findRow
      (upsertUltra [(⟨"KMA10", 0⟩, ⟨some 20, none, none⟩)] 0 none (some 55))
      ⟨"KMA10", 0⟩ = some (⟨"KMA10", 0⟩, ⟨some 20, some 55, none⟩) :=
  C5_null_preserving_upsert.2.2.1 [(⟨"KMA10", 0⟩, ⟨some 20, none, none⟩)] 0
    ⟨some 20, none, none⟩ none (some 55) rfl (by decide)

theorem foldl_arduinoStep_same_minute (m : ℤ) :
    ∀ (xs : List Sample) (s : Store), (∀ y ∈ xs, minuteFloor y.recv = m) →
      xs.foldl arduinoStep (s, some m) = (s, some m) := by
  intro xs
  induction xs with
  | nil => intro s _; rfl
  | cons y ys ih =>
      intro s hall
      have hy : minuteFloor y.recv = m := hall y (List.mem_cons_self y ys)
      have hstep : arduinoStep (s, some m) y = (s, some m) := by
        unfold arduinoStep
        rw [hy, if_pos rfl]
      rw [List.foldl_cons, hstep]
      exact ih s (fun z hz => hall z (List.mem_cons_of_mem y hz))

/-- Claim C6: over a run of sensor samples whose timestamps floor to the same
minute, only the first committed insert survives — the loop state after the
run is the store extended by exactly the first sample's row (app.py:358-369);
and an attempted insert that collides with an existing `(Arduino, minute)` key
is a silent no-op leaving the whole loop state unchanged (the `IntegrityError`
rollback of app.py:368-369). -/
theorem C6_duplicate_minute_insert_noop :
    (∀ (s : Store) (last0 : Option ℤ) (m : ℤ) (x : Sample) (rest : List Sample),
      (∀ y ∈ x :: rest, minuteFloor y.recv = m) →
      Store.findRow s ⟨"Arduino", m⟩ = none →
      last0 ≠ some m →
      read_from_arduino_loop s last0 (x :: rest) =
        (s ++ [(⟨"Arduino", m⟩, ⟨some x.temp, some x.humid, x.press⟩)], some m))
    ∧ (∀ (st : Store × Option ℤ) (x : Sample),
        (Store.findRow st.1 ⟨"Arduino", minuteFloor x.recv⟩).isSome = true →
        arduinoStep st x = st) := by
  constructor
  · intro s last0 m x rest hall hkey hlast
    have hm : minuteFloor x.recv = m := hall x (List.mem_cons_self x rest)
    have hstep : arduinoStep (s, last0) x =
        (s ++ [(⟨"Arduino", m⟩, ⟨some x.temp, some x.humid, x.press⟩)], some m) := by
      unfold arduinoStep
      rw [hm]
      rw [if_neg (fun hc => hlast hc.symm)]
      have : Store.findRow (s, last0).1 ⟨"Arduino", m⟩ = none := hkey
      rw [this]
      rfl
    unfold read_from_arduino_loop
    rw [List.foldl_cons, hstep]
    exact foldl_arduinoStep_same_minute m rest _
      (fun z hz => hall z (List.mem_cons_of_mem x hz))
  · intro st x hdup
    show (if some (minuteFloor x.recv) = st.2 then st
      else if (Store.findRow st.1 ⟨"Arduino", minuteFloor x.recv⟩).isSome = true
        then (st.1, st.2)
      else (st.1 ++ [(⟨"Arduino", minuteFloor x.recv⟩, ⟨some x.temp, some x.humid, x.press⟩)],
        some (minuteFloor x.recv))) = st
    by_cases hg : some (minuteFloor x.recv) = st.2
    · rw [if_pos hg]
    · rw [if_neg hg, if_pos hdup]

theorem C6_duplicate_minute_insert_noop_witness :
    read_from_arduino_loop [] none
      [⟨60, 21, 50, none⟩, ⟨75, 22, 51, some 1013⟩, ⟨119, 23, 52, none⟩] =
      ([(⟨"Arduino", 60⟩, ⟨some 21, some 50, none⟩)], some 60) :=
  C6_duplicate_minute_insert_noop.1 [] none 60 ⟨60, 21, 50, none⟩
    [⟨75, 22, 51, some 1013⟩, ⟨119, 23, 52, none⟩] (by decide) rfl (by decide)

/-! ### Claim theorems: sentinel filtering -/

/-- Claim C7: every raw hourly-payload value equal to one of the sentinel
strings `"-999"`, `"-999.0"`, `""` is normalized to null before storage
(app.py:292-293), every other value is stored as its float parse, and
`"-999.0"` — whose float parse is the number −999 — is never stored as
−999.0. -/
theorem C7_sentinel_filter :
    asosField "" = some none
    ∧ asosField "-999.0" = some none
    ∧ asosField "-999" = some none
    ∧ (∀ v : String, v ∉ (["", "-999.0", "-999"] : List String) →
        asosField v = (parseFloat v).map some)
    ∧ parseFloat "-999.0" = some (-999)
    ∧ asosField "-999.0" ≠ some (some (-999)) := by
  refine ⟨rfl, rfl, rfl, ?_, ?_, ?_⟩
  · intro v hv
    unfold asosField
    rw [if_neg hv]
  · have h1 : parseFloat "-999.0" =
        some (-(((999 : ℕ) : ℚ) + ((0 : ℕ) : ℚ) / (10 : ℚ) ^ 1)) := rfl
    rw [h1]
    norm_num
  · intro hc
    have h1 : asosField "-999.0" = some none := rfl
    rw [h1] at hc
    exact Option.noConfusion (Option.some_inj.mp hc)

theorem C7_sentinel_filter_witness :
    ("21.5" : String) ∉ (["", "-999.0", "-999"] : List String) ∧
      asosField "21.5" = (parseFloat "21.5").map some :=
  ⟨by decide, C7_sentinel_filter.2.2.2.1 "21.5" (by decide)⟩

/-! ### Claim theorems: the error engine (spec-modelled) -/

theorem zipWith_getElem? (f : Option ℚ → Option ℚ → Option ℚ) :
    ∀ (as bs : List (Option ℚ)) (i : ℕ),
      (List.zipWith f as bs)[i]? =
        match as[i]?, bs[i]? with
        | some a, some b => some (f a b)
        | _, _ => none := by
  intro as
  induction as with
  | nil => intro bs i; cases bs[i]? <;> rfl
  | cons a as ih =>
      intro bs i
      cases bs with
      | nil =>
          have h1 : (List.zipWith f (a :: as) ([] : List (Option ℚ))) = [] := rfl
          rw [h1]
          cases (a :: as)[i]? <;> rfl
      | cons b bs =>
          cases i with
          | zero => simp [List.zipWith_cons_cons]
          | succ n =>
              simp only [List.zipWith_cons_cons, List.getElem?_cons_succ]
              exact ih bs n

/-- Claim C4 (spec-modelled — the Error/Comparison Engine is not in `src/`):
with equal-length sensor and reference series, the error at every index is
null when either value is null or the reference is zero, and otherwise
`|sensor − reference| / |reference| × 100` rounded to 2 decimals; the average
is the mean of the non-null errors (null when there are none) and the latest
is the last non-null error scanning backward (null when there are none).  At
the spec's instance, sensor 21.0 against reference 20.0 gives exactly 5.0,
and a zero reference gives null for every sensor value. -/
theorem C4_error_engine :
    (∀ (sensor reference : List (Option ℚ)),
      sensor.length = reference.length →
      ((computeErrors sensor reference).1.length = sensor.length)
      ∧ (∀ (i : ℕ) (sv rv : ℚ),
          sensor[i]? = some (some sv) → reference[i]? = some (some rv) → rv ≠ 0 →
          (computeErrors sensor reference).1[i]? =
            some (some (round2 (|sv - rv| / |rv| * 100))))
      ∧ (∀ (i : ℕ) (s r : Option ℚ),
          sensor[i]? = some s → reference[i]? = some r →
          s = none ∨ r = none ∨ r = some 0 →
          (computeErrors sensor reference).1[i]? = some none)
      ∧ ((computeErrors sensor reference).1.filterMap id = [] →
          (computeErrors sensor reference).2.1 = none ∧
          (computeErrors sensor reference).2.2 = none)
      ∧ ((computeErrors sensor reference).1.filterMap id ≠ [] →
          (computeErrors sensor reference).2.1 =
            some (((computeErrors sensor reference).1.filterMap id).sum /
              (((computeErrors sensor reference).1.filterMap id).length : ℚ)))
      ∧ (∀ (l1 l2 : List (Option ℚ)) (v : ℚ),
          (computeErrors sensor reference).1 = l1 ++ some v :: l2 →
          (∀ e ∈ l2, e = none) →
          (computeErrors sensor reference).2.2 = some v))
    ∧ computeErrors [some 21] [some 20] = ([some 5], some 5, some 5)
    ∧ (∀ sv : ℚ, errAt (some sv) (some 0) = none) := by
  refine ⟨?_, ?_, ?_⟩
  · intro sensor reference hlen
    refine ⟨?_, ?_, ?_, ?_, ?_, ?_⟩
    · show (List.zipWith errAt sensor reference).length = sensor.length
      rw [List.length_zipWith, hlen, Nat.min_self]
    · intro i sv rv hs hr hrz
      show (List.zipWith errAt sensor reference)[i]? = _
      rw [zipWith_getElem? errAt sensor reference i, hs, hr]
      show some (if rv = 0 then none else some (round2 (|sv - rv| / |rv| * 100))) = _
      rw [if_neg hrz]
    · intro i s r hs hr hnull
      show (List.zipWith errAt sensor reference)[i]? = _
      rw [zipWith_getElem? errAt sensor reference i, hs, hr]
      rcases hnull with h | h | h
      · subst h; cases r <;> rfl
      · subst h; cases s <;> rfl
      · subst h
        cases s with
        | none => rfl
        | some sv =>
            show some (if (0 : ℚ) = 0 then none
              else some (round2 (|sv - 0| / |(0 : ℚ)| * 100))) = _
            rw [if_pos rfl]
    · intro hnil
      have hnil' : List.filterMap id (List.zipWith errAt sensor reference) = [] := hnil
      constructor
      · show (if List.filterMap id (List.zipWith errAt sensor reference) = [] then none
          else some ((List.filterMap id (List.zipWith errAt sensor reference)).sum /
            ((List.filterMap id (List.zipWith errAt sensor reference)).length : ℚ))) = none
        rw [if_pos hnil']
      · show ((List.zipWith errAt sensor reference).reverse.filterMap id).head? = none
        have : (List.zipWith errAt sensor reference).reverse.filterMap id = [] := by
          refine List.filterMap_eq_nil_iff.mpr ?_
          intro a ha
          exact List.filterMap_eq_nil_iff.mp hnil a (List.mem_reverse.mp ha)
        rw [this]
        rfl
    · intro hne
      have hne' : List.filterMap id (List.zipWith errAt sensor reference) ≠ [] := hne
      show (if List.filterMap id (List.zipWith errAt sensor reference) = [] then none
        else some ((List.filterMap id (List.zipWith errAt sensor reference)).sum /
          ((List.filterMap id (List.zipWith errAt sensor reference)).length : ℚ))) = _
      rw [if_neg hne']
      rfl
    · intro l1 l2 v herr hnull
      have herr' : List.zipWith errAt sensor reference = l1 ++ some v :: l2 := herr
      show ((List.zipWith errAt sensor reference).reverse.filterMap id).head? = some v
      rw [herr', List.reverse_append, List.reverse_cons, List.filterMap_append,
        List.filterMap_append]
      have h2 : l2.reverse.filterMap id = [] := by
        refine List.filterMap_eq_nil_iff.mpr ?_
        intro a ha
        rw [hnull a (List.mem_reverse.mp ha)]
        rfl
      rw [h2]
      rfl
  · have he : List.zipWith errAt [some 21] [some 20] = [some 5] := by
      have h : errAt (some 21) (some 20) = some 5 := by
        show (if (20 : ℚ) = 0 then none
          else some (round2 (|(21 : ℚ) - 20| / |(20 : ℚ)| * 100))) = some 5
        rw [if_neg (by norm_num)]
        norm_num [round2, round_eq]
      show [errAt (some 21) (some 20)] = [some 5]
      rw [h]
    show (List.zipWith errAt [some 21] [some 20],
        if (List.zipWith errAt [some 21] [some 20]).filterMap id = [] then none
        else some (((List.zipWith errAt [some 21] [some 20]).filterMap id).sum /
          (((List.zipWith errAt [some 21] [some 20]).filterMap id).length : ℚ)),
        ((List.zipWith errAt [some 21] [some 20]).reverse.filterMap id).head?) =
      ([some 5], some 5, some 5)
    rw [he]
    simp
  · intro sv
    show (if (0 : ℚ) = 0 then none
      else some (round2 (|sv - 0| / |(0 : ℚ)| * 100))) = none
    rw [if_pos rfl]

theorem C4_error_engine_witness :
    (computeErrors [some 21, none] [some 20, some 3]).1.length =
      ([some 21, none] : List (Option ℚ)).length :=
  (C4_error_engine.1 [some 21, none] [some 20, some 3] rfl).1

/-! ### The label grid -/

theorem tenMinRangeAux_lower (endT : ℤ) :
    ∀ (fuel : ℕ) (c x : ℤ), x ∈ tenMinRangeAux endT fuel c →
      c ≤ x ∧ x ≤ endT ∧ x % 600 = c % 600 := by
  intro fuel
  induction fuel with
  | zero => intro c x hx; simp [tenMinRangeAux] at hx
  | succ fuel ih =>
      intro c x hx
      simp only [tenMinRangeAux] at hx
      by_cases hc : c ≤ endT
      · rw [if_pos hc] at hx
        rcases List.mem_cons.mp hx with h | h
        · omega
        · have := ih (c + 600) x h
          omega
      · rw [if_neg hc] at hx
        simp at hx

theorem tenMinRangeAux_mem (endT : ℤ) :
    ∀ (fuel : ℕ) (c : ℤ), endT - c < 600 * fuel →
      ∀ x : ℤ, x ∈ tenMinRangeAux endT fuel c ↔
        c ≤ x ∧ x ≤ endT ∧ x % 600 = c % 600 := by
  intro fuel
  induction fuel with
  | zero =>
      intro c hfuel x
      simp only [tenMinRangeAux, List.not_mem_nil, false_iff]
      omega
  | succ fuel ih =>
      intro c hfuel x
      simp only [tenMinRangeAux]
      by_cases hc : c ≤ endT
      · rw [if_pos hc, List.mem_cons, ih (c + 600) (by omega) x]
        constructor
        · intro h
          rcases h with h | h
          · omega
          · omega
        · intro h
          by_cases hxc : x = c
          · exact Or.inl hxc
          · right; omega
      · rw [if_neg hc]
        simp only [List.not_mem_nil, false_iff]
        omega

theorem tenMinRangeAux_pairwise (endT : ℤ) :
    ∀ (fuel : ℕ) (c : ℤ), (tenMinRangeAux endT fuel c).Pairwise (· < ·) := by
  intro fuel
  induction fuel with
  | zero => intro c; simp [tenMinRangeAux]
  | succ fuel ih =>
      intro c
      simp only [tenMinRangeAux]
      by_cases hc : c ≤ endT
      · rw [if_pos hc]
        refine List.pairwise_cons.mpr ⟨?_, ih (c + 600)⟩
        intro x hx
        have := tenMinRangeAux_lower endT fuel (c + 600) x hx
        omega
      · rw [if_neg hc]
        simp

theorem ten_min_range_mem (s e : ℤ) (x : ℤ) :
    x ∈ ten_min_range s e ↔
      tenMinFloor s ≤ x ∧ x ≤ tenMinFloor e ∧ x % 600 = 0 := by
  have hs : tenMinFloor s = s - s % 600 := rfl
  have he : tenMinFloor e = e - e % 600 := rfl
  rw [ten_min_range, tenMinRangeAux_mem _ _ _ (by omega) x]
  omega

theorem ten_min_range_sorted (s e : ℤ) : (ten_min_range s e).Pairwise (· < ·) :=
  tenMinRangeAux_pairwise _ _ _

theorem ten_min_range_ne_nil (s e : ℤ) (h : s ≤ e) : ten_min_range s e ≠ [] := by
  have hs : tenMinFloor s = s - s % 600 := rfl
  have he : tenMinFloor e = e - e % 600 := rfl
  rw [ten_min_range, tenMinRangeAux]
  rw [if_pos (by omega)]
  exact List.cons_ne_nil _ _

theorem two_mem_length {l : List ℤ} {a b : ℤ} (hab : a ≠ b) (ha : a ∈ l) (hb : b ∈ l) :
    2 ≤ l.length := by
  match l with
  | [] => simp at ha
  | [x] =>
      simp at ha hb
      exact absurd (ha.trans hb.symm) hab
  | x :: y :: rest => simp only [List.length_cons]; omega

/-! ### Claim theorems: the label grid and the chart endpoint -/

/-- Claim C8, amended: for every window with start ≤ end the grid is the
strictly ascending sequence of every 10-minute tick from the 10-minute floor
of the start through the 10-minute floor of the end inclusive, hence nonempty
(app.py:74-83); and in the chart endpoint's branch where a first Arduino
record exists, a window under 10 minutes moves the start back one extra
10-minute step, and the grid then always has at least 2 labels
(app.py:433-438).  The original claim additionally asserted the extension for
every request; the no-Arduino branch (app.py:439-442) never extends, see the
counterexample. -/
theorem C8_label_grid_amended :
    (∀ s e : ℤ, s ≤ e →
      (ten_min_range s e).Pairwise (· < ·) ∧
      (∀ x : ℤ, x ∈ ten_min_range s e ↔
        tenMinFloor s ≤ x ∧ x ≤ tenMinFloor e ∧ x % 600 = 0) ∧
      ten_min_range s e ≠ [])
    ∧ (∀ ts session_start now : ℤ, ts ≤ now →
        (now - tenMinFloor ts < 600 →
          chartStart (some ts) session_start now = tenMinFloor ts - 600) ∧
        2 ≤ (ten_min_range (chartStart (some ts) session_start now) now).length) := by
  constructor
  · intro s e hse
    exact ⟨ten_min_range_sorted s e, ten_min_range_mem s e, ten_min_range_ne_nil s e hse⟩
  · intro ts session_start now hts
    have hf : tenMinFloor ts = ts - ts % 600 := rfl
    have hn : tenMinFloor now = now - now % 600 := rfl
    constructor
    · intro hlt
      show (if now - tenMinFloor ts < 600 then tenMinFloor ts - 600 else tenMinFloor ts) = _
      rw [if_pos hlt]
    · by_cases hlt : now - tenMinFloor ts < 600
      · have hcs : chartStart (some ts) session_start now = tenMinFloor ts - 600 := by
          show (if now - tenMinFloor ts < 600 then tenMinFloor ts - 600 else tenMinFloor ts) = _
          rw [if_pos hlt]
        rw [hcs]
        have h2 : tenMinFloor (tenMinFloor ts - 600) =
            (tenMinFloor ts - 600) - (tenMinFloor ts - 600) % 600 := rfl
        refine two_mem_length (a := tenMinFloor ts - 600) (b := tenMinFloor ts)
          (by omega) ?_ ?_
        · rw [ten_min_range_mem]; omega
        · rw [ten_min_range_mem]; omega
      · have hcs : chartStart (some ts) session_start now = tenMinFloor ts := by
          show (if now - tenMinFloor ts < 600 then tenMinFloor ts - 600 else tenMinFloor ts) = _
          rw [if_neg hlt]
        rw [hcs]
        have h2 : tenMinFloor (tenMinFloor ts) =
            tenMinFloor ts - (tenMinFloor ts) % 600 := rfl
        refine two_mem_length (a := tenMinFloor ts) (b := tenMinFloor ts + 600)
          (by omega) ?_ ?_
        · rw [ten_min_range_mem]; omega
        · rw [ten_min_range_mem]; omega

/-- Claim C8 as stated fails in the chart endpoint's no-Arduino branch: no
first sensor record, session started 300 s before `now` — the window spans
under 10 minutes, no extension is applied, the grid has a single label. -/
theorem C8_counterexample :
    (1080 : ℤ) - 780 < 600 ∧
      chartStart none 780 1080 = 600 ∧
      (get_chart_data none 780 1080 [] []).1.length = 1 := by
  refine ⟨by decide, by decide, by decide⟩

theorem C8_label_grid_amended_witness :
    ((600 : ℤ) ∈ ten_min_range 0 1800 ↔
      tenMinFloor 0 ≤ 600 ∧ (600 : ℤ) ≤ tenMinFloor 1800 ∧ (600 : ℤ) % 600 = 0) ∧
      2 ≤ (ten_min_range (chartStart (some 700) 0 1000) 1000).length :=
  ⟨(C8_label_grid_amended.1 0 1800 (by decide)).2.1 600,
    (C8_label_grid_amended.2 700 0 1000 (by decide)).2⟩

theorem lfGo_length (keys : List ℤ) (get : ℤ → Option ℚ) :
    ∀ (tl : List ℤ) (i : ℕ), (lfGo keys get i tl).length = tl.length := by
  intro tl
  induction tl with
  | nil => intro i; rfl
  | cons t ts ih =>
      intro i
      simp only [lfGo, List.length_cons]
      rw [ih]

theorem linear_fill_length (m : List (ℤ × Option ℚ)) (tl : List ℤ) :
    (linear_fill m tl).length = tl.length := by
  unfold linear_fill
  by_cases h1 : m = []
  · rw [if_pos h1, List.length_map]
  · rw [if_neg h1]
    by_cases h2 : List.insertionSort (· ≤ ·) (m.map Prod.fst) = []
    · rw [if_pos h2, List.length_map]
    · rw [if_neg h2]
      exact lfGo_length _ _ tl 0

/-- Claim C9: for every chart-data request the three returned series are
parallel — the labels, the reference values and the sensor values have exactly
the same length (app.py:444-477; the interpolator returns one element per
label in every branch, the sensor series is a lookup over the same labels). -/
theorem C9_parallel_series (first_arduino : Option ℤ) (session_start now : ℤ)
    (kma_recs ard_recs : List (ℤ × Option ℚ)) :
    (get_chart_data first_arduino session_start now kma_recs ard_recs).1.length =
      (get_chart_data first_arduino session_start now kma_recs ard_recs).2.1.length ∧
    (get_chart_data first_arduino session_start now kma_recs ard_recs).1.length =
      (get_chart_data first_arduino session_start now kma_recs ard_recs).2.2.length := by
  constructor
  · show (ten_min_range (chartStart first_arduino session_start now) now).length =
      (linear_fill (kmaMap kma_recs)
        (ten_min_range (chartStart first_arduino session_start now) now)).length
    rw [linear_fill_length]
  · show (ten_min_range (chartStart first_arduino session_start now) now).length =
      ((ten_min_range (chartStart first_arduino session_start now) now).map
        (fun t => dictGet (ardBucket
          (ten_min_range (chartStart first_arduino session_start now) now) ard_recs) t)).length
    rw [List.length_map]

/-! ### Claim theorems: the reference series is all-null or all-non-null -/

theorem dictInsert_value_all {m : List (ℤ × Option ℚ)} {k : ℤ} {v : Option ℚ}
    (hm : ∀ p ∈ m, p.2 ≠ none) (hv : v ≠ none) :
    ∀ p ∈ dictInsert m k v, p.2 ≠ none := by
  intro p hp
  unfold dictInsert at hp
  split at hp
  · rcases List.mem_map.mp hp with ⟨q, hq, hqp⟩
    by_cases hqk : q.1 = k
    · rw [if_pos hqk] at hqp
      rw [← hqp]
      exact hv
    · rw [if_neg hqk] at hqp
      rw [← hqp]
      exact hm q hq
  · rcases List.mem_append.mp hp with h | h
    · exact hm p h
    · simp only [List.mem_singleton] at h
      rw [h]
      exact hv

theorem dictInsert_nodup {m : List (ℤ × Option ℚ)} {k : ℤ} {v : Option ℚ}
    (h : (m.map Prod.fst).Nodup) : ((dictInsert m k v).map Prod.fst).Nodup := by
  unfold dictInsert
  split
  next hany =>
    have heq : (m.map (fun p => if p.1 = k then (k, v) else p)).map Prod.fst =
        m.map Prod.fst := by
      rw [List.map_map]
      apply List.map_congr_left
      intro p _
      by_cases hpk : p.1 = k
      · simp [hpk]
      · simp [hpk]
    rw [heq]
    exact h
  next hany =>
    have hk : k ∉ m.map Prod.fst := by
      intro hmem
      rcases List.mem_map.mp hmem with ⟨q, hq, hqk⟩
      exact hany (List.any_eq_true.mpr ⟨q, hq, by simp [hqk]⟩)
    rw [List.map_append]
    refine List.Nodup.append h (List.nodup_singleton k) ?_
    intro a ha hb
    simp only [List.map_cons, List.map_nil, List.mem_singleton] at hb
    subst hb
    exact hk ha

theorem kmaMap_invariant_aux :
    ∀ (recs : List (ℤ × Option ℚ)) (m0 : List (ℤ × Option ℚ)),
      (∀ p ∈ m0, p.2 ≠ none) → (m0.map Prod.fst).Nodup →
      (∀ p ∈ recs.foldl (fun m r => match r.2 with
          | some v => dictInsert m (tenMinFloor r.1) (some v)
          | none => m) m0, p.2 ≠ none) ∧
        ((recs.foldl (fun m r => match r.2 with
          | some v => dictInsert m (tenMinFloor r.1) (some v)
          | none => m) m0).map Prod.fst).Nodup := by
  intro recs
  induction recs with
  | nil => intro m0 h1 h2; exact ⟨h1, h2⟩
  | cons r rs ih =>
      intro m0 h1 h2
      simp only [List.foldl_cons]
      cases hr : r.2 with
      | none =>
          simp only [hr]
          exact ih m0 h1 h2
      | some v =>
          simp only [hr]
          exact ih _ (dictInsert_value_all h1 (by simp)) (dictInsert_nodup h2)

theorem kmaMap_invariant (recs : List (ℤ × Option ℚ)) :
    (∀ p ∈ kmaMap recs, p.2 ≠ none) ∧ ((kmaMap recs).map Prod.fst).Nodup :=
  kmaMap_invariant_aux recs [] (by simp) (by simp)

theorem insertionSort_keys_strict {l : List ℤ} (hnd : l.Nodup) :
    (List.insertionSort (· ≤ ·) l).Pairwise (· < ·) := by
  have hknd : (List.insertionSort (· ≤ ·) l).Nodup :=
    (List.perm_insertionSort (· ≤ ·) l).symm.nodup hnd
  have hsorted : (List.insertionSort (· ≤ ·) l).Pairwise (· ≤ ·) :=
    List.sorted_insertionSort (· ≤ ·) l
  exact (hsorted.and hknd).imp (fun hh => lt_of_le_of_ne hh.1 hh.2)

theorem insertionSort_keys_ne_nil {l : List ℤ} (hne : l ≠ []) :
    List.insertionSort (· ≤ ·) l ≠ [] := by
  intro hc
  apply hne
  have := (List.perm_insertionSort (· ≤ ·) l).length_eq
  rw [hc] at this
  exact List.length_eq_zero.mp this.symm

theorem insertionSort_keys_mem {l : List ℤ} :
    ∀ k ∈ List.insertionSort (· ≤ ·) l, k ∈ l := by
  intro k hk
  exact (List.perm_insertionSort (· ≤ ·) l).mem_iff.mp hk

/-- On a nonempty anchor dict with distinct keys and a sorted timeline,
`linear_fill` is the pointwise fill over the internally sorted key list. -/
theorem linear_fill_eq_map_nodup {m : List (ℤ × Option ℚ)} {tl : List ℤ}
    (hne : m ≠ []) (hnd : (m.map Prod.fst).Nodup) (htl : tl.Pairwise (· ≤ ·)) :
    linear_fill m tl =
      tl.map (fillAt (List.insertionSort (· ≤ ·) (m.map Prod.fst)) (dictGet m)) := by
  have hkne : List.insertionSort (· ≤ ·) (m.map Prod.fst) ≠ [] :=
    insertionSort_keys_ne_nil (by simpa using hne)
  unfold linear_fill
  rw [if_neg hne, if_neg hkne]
  exact lfGo_eq_map _ _ hkne (insertionSort_keys_strict hnd) tl 0 htl (Or.inl rfl)

/-- Claim C10: anchors whose stored field value is null are filtered out
before interpolation (app.py:459-461), so the reference series of any chart
response is either entirely null or entirely non-null — never mixed. -/
theorem C10_reference_series_never_mixed (first_arduino : Option ℤ)
    (session_start now : ℤ) (kma_recs ard_recs : List (ℤ × Option ℚ)) :
    (∀ x ∈ (get_chart_data first_arduino session_start now kma_recs ard_recs).2.1,
      x = none)
    ∨ (∀ x ∈ (get_chart_data first_arduino session_start now kma_recs ard_recs).2.1,
      x ≠ none) := by
  have hinv := kmaMap_invariant kma_recs
  have hser : (get_chart_data first_arduino session_start now kma_recs ard_recs).2.1 =
      linear_fill (kmaMap kma_recs)
        (ten_min_range (chartStart first_arduino session_start now) now) := rfl
  rw [hser]
  by_cases hempty : kmaMap kma_recs = []
  · left
    intro x hx
    rw [hempty] at hx
    unfold linear_fill at hx
    rw [if_pos rfl] at hx
    rcases List.mem_map.mp hx with ⟨_, _, h⟩
    exact h.symm
  · right
    intro x hx
    have htl : (ten_min_range (chartStart first_arduino session_start now) now).Pairwise
        (· ≤ ·) :=
      (ten_min_range_sorted _ _).imp le_of_lt
    rw [linear_fill_eq_map_nodup hempty hinv.2 htl] at hx
    rcases List.mem_map.mp hx with ⟨t, _, hxt⟩
    rw [← hxt]
    exact fillAt_ne_none (insertionSort_keys_strict hinv.2)
      (insertionSort_keys_ne_nil (by simpa using hempty))
      insertionSort_keys_mem hinv.1

